import Mathlib

/-!
Verification of the parallel proof-of-work search `find_hash_par` from
`src/mine.rs` of the `ore-cli-custom` repository.

The embedding models:
* the nonce-range arithmetic each worker thread performs on entry
  (`u64::MAX.saturating_div(cores).saturating_mul(id)`, mine.rs line 100);
* one iteration of the worker search loop (mine.rs lines 115-146) as a pure
  step function `workerBody`, with the external deterministic hash primitive
  `drillx::hash_with_memory` abstracted as a function
  `H : Nat -> Option (Nat × Hash)` giving, for a nonce (the challenge being
  fixed for the whole call), either the pair (difficulty, hash) or `none`
  when the primitive rejects the input;
* the whole multi-threaded search as a round-based interleaving: the shared
  `AtomicBool` stop flag is threaded through the workers, each worker
  performing one loop iteration per round in worker order (a fair schedule);
* the join/reduce phase (mine.rs lines 153-165) as a left fold `reduceBest`,
  and the final `Solution::new(best_hash.d, best_nonce.to_le_bytes())`
  (mine.rs line 174) as `findHashParResult`.

Machine integers are modelled as `Nat` with the `u64` wrap made explicit
where the source can overflow.  The `evals` field of a worker state is a
ghost counter of invocations of the hash primitive; it influences nothing.
-/

/-- The modulus of the `u64` type. -/
def u64Size : Nat := 2 ^ 64

/-- `u64::MAX`. -/
def u64Max : Nat := 2 ^ 64 - 1

/-- Starting nonce of the worker pinned to core `id` (mine.rs line 100):
`u64::MAX.saturating_div(cores).saturating_mul(id)`.  Rust's
`saturating_div` on unsigned integers is plain division (for `cores >= 1`),
and `saturating_mul` clamps at `u64::MAX`. -/
def startNonce (cores id : Nat) : Nat :=
  min (u64Max / cores * id) u64Max

/-- Upper end (exclusive) of the nonce sub-range owned by the worker on core
`id`: the next worker's start, or the end of the `u64` space for the last
worker.  The source never bounds the scan explicitly; this is the implied
range of the partition. -/
def workerEnd (cores id : Nat) : Nat :=
  if id + 1 < cores then startNonce cores (id + 1) else u64Size

/-- Model of `drillx::Hash`: a 16-byte digest `d` and a 32-byte hash `h`. -/
structure Hash where
  d : List Nat
  h : List Nat
deriving DecidableEq, Repr

/-- Model of `drillx::Hash::default()`: all-zero digest and hash. -/
def Hash.default : Hash :=
  ⟨List.replicate 16 0, List.replicate 32 0⟩

/-- The triple `(best_nonce, best_difficulty, best_hash)` a worker thread
returns (mine.rs line 148, and line 107 for skipped cores). -/
structure WorkerResult where
  nonce : Nat
  difficulty : Nat
  hash : Hash
deriving DecidableEq, Repr

/-- The contribution of a worker that never searched: mine.rs line 107
returns `(0, 0, Hash::default())`; the reducer's accumulator also starts
from this value (mine.rs lines 154-156). -/
def nullResult : WorkerResult :=
  ⟨0, 0, Hash.default⟩

/-- Model of `drillx::Solution`: digest bytes `d` and the 8 little-endian
nonce bytes `n`. -/
structure Solution where
  d : List Nat
  n : List Nat
deriving DecidableEq, Repr

/-- Little-endian byte encoding of a `u64` value (`u64::to_le_bytes`). -/
def leBytes8 (x : Nat) : List Nat :=
  (List.range 8).map (fun k => x / 256 ^ k % 256)

/-- Per-worker mutable state of the search loop (mine.rs lines 100-104).
`evals` is a ghost counter of hash-primitive invocations. -/
structure WorkerState where
  nonce : Nat
  best_nonce : Nat
  best_difficulty : Nat
  best_hash : Hash
  evals : Nat
deriving DecidableEq, Repr

/-- The best-triple update of one successful hash (mine.rs lines 126-131):
replace the best triple exactly when the new difficulty is strictly
greater.  The ghost `evals` counter records the hash-primitive call. -/
def updateBest (difficulty : Nat) (hx : Hash) (s : WorkerState) : WorkerState :=
  if s.best_difficulty < difficulty then
    { s with best_nonce := s.nonce, best_difficulty := difficulty,
             best_hash := hx, evals := s.evals + 1 }
  else
    { s with evals := s.evals + 1 }

/-- One iteration of the worker loop body, executed when the stop flag was
observed unset (mine.rs lines 120-145).  The returned `Bool` is `true`
exactly when the iteration stored `true` into the stop flag and broke out
of the loop (lines 140-143).  On a hash-primitive failure the `if let Ok`
block is skipped and only `nonce += 1` runs (line 145); the increment wraps
like `u64` arithmetic. -/
def workerBody (H : Nat → Option (Nat × Hash)) (min_difficulty : Nat)
    (s : WorkerState) : WorkerState × Bool :=
  match H s.nonce with
  | some (difficulty, hx) =>
    let s1 := updateBest difficulty hx s
    if min_difficulty ≤ s1.best_difficulty then (s1, true)
    else ({ s1 with nonce := (s1.nonce + 1) % u64Size }, false)
  | none => ({ s with nonce := (s.nonce + 1) % u64Size, evals := s.evals + 1 }, false)

/-- Status of one worker thread: still in its loop, or terminated with its
result triple (the ghost eval counter is carried along). -/
inductive WStatus where
  | running (s : WorkerState)
  | done (r : WorkerResult) (evals : Nat)
deriving DecidableEq, Repr

/-- The result a running worker would return if it exited now (mine.rs
lines 117-119 followed by line 148). -/
def finishNow : WStatus → WStatus
  | .running s => .done ⟨s.best_nonce, s.best_difficulty, s.best_hash⟩ s.evals
  | .done r e => .done r e

/-- Ghost: number of hash-primitive invocations a worker has performed. -/
def workerEvals : WStatus → Nat
  | .running s => s.evals
  | .done _ e => e

/-- Whether a worker has terminated. -/
def isDone : WStatus → Bool
  | .running _ => false
  | .done _ _ => true

/-- One scheduled turn of a worker: a finished worker does nothing; a
running worker first reads the stop flag (mine.rs lines 117-119) and exits
if it is set, otherwise runs one loop-body iteration, which may store
`true` into the flag and exit (lines 140-143).  Returns the worker's new
status and the new flag value. -/
def workerTurn (H : Nat → Option (Nat × Hash)) (min_difficulty : Nat)
    (flag : Bool) (w : WStatus) : WStatus × Bool :=
  match w with
  | .done r e => (.done r e, flag)
  | .running s =>
    if flag then
      (.done ⟨s.best_nonce, s.best_difficulty, s.best_hash⟩ s.evals, flag)
    else
      match workerBody H min_difficulty s with
      | (s1, true) => (.done ⟨s1.best_nonce, s1.best_difficulty, s1.best_hash⟩ s1.evals, true)
      | (s1, false) => (.running s1, false)

/-- One round of the interleaved execution: every worker takes one turn, in
worker order, the shared stop flag threaded through. -/
def roundGo (H : Nat → Option (Nat × Hash)) (min_difficulty : Nat) :
    Bool → List WStatus → Bool × List WStatus
  | flag, [] => (flag, [])
  | flag, w :: ws =>
    let p := workerTurn H min_difficulty flag w
    let q := roundGo H min_difficulty p.2 ws
    (q.1, p.1 :: q.2)

/-- Shared state of one `find_hash_par` call: the stop flag (mine.rs
line 89) and the list of worker threads (lines 93-151). -/
structure SysState where
  flag : Bool
  workers : List WStatus
deriving DecidableEq, Repr

/-- One interleaving round over the whole system. -/
def sysRound (H : Nat → Option (Nat × Hash)) (min_difficulty : Nat)
    (st : SysState) : SysState :=
  let q := roundGo H min_difficulty st.flag st.workers
  ⟨q.1, q.2⟩

/-- Run `R` interleaving rounds. -/
def sysRun (H : Nat → Option (Nat × Hash)) (min_difficulty : Nat) :
    Nat → SysState → SysState
  | 0, st => st
  | R + 1, st => sysRun H min_difficulty R (sysRound H min_difficulty st)

/-- Initial status of the worker spawned for core `id` (mine.rs
lines 100-108): state initialised at its start nonce, but cores with
`id >= cores` return `(0, 0, Hash::default())` immediately, before any
hashing (lines 106-108). -/
def initWorker (cores id : Nat) : WStatus :=
  if cores ≤ id then .done nullResult 0
  else
    .running ⟨startNonce cores id, startNonce cores id, 0, Hash.default, 0⟩

/-- Initial system state of a call: fresh unset stop flag, one worker per
enumerated core id. -/
def initState (cores : Nat) (ids : List Nat) : SysState :=
  ⟨false, ids.map (initWorker cores)⟩

/-- All workers have terminated (the join loop of mine.rs line 157 has
completed). -/
def allDone (st : SysState) : Bool :=
  st.workers.all isDone

/-- The per-worker results as seen by the join loop; a still-running worker
has no result yet. -/
def results (st : SysState) : List (Option WorkerResult) :=
  st.workers.map (fun w =>
    match w with
    | .done r _ => some r
    | .running _ => none)

/-- One step of the reducer's fold (mine.rs lines 157-164): a worker whose
join failed (`none`) is skipped; otherwise its triple replaces the current
best exactly when its difficulty is strictly greater. -/
def reduceStep (best : WorkerResult) (r : Option WorkerResult) : WorkerResult :=
  match r with
  | none => best
  | some r => if best.difficulty < r.difficulty then r else best

/-- The reducer (mine.rs lines 153-165): fold the per-worker results over
the initial best `(0, 0, Hash::default())`. -/
def reduceBest (rs : List (Option WorkerResult)) : WorkerResult :=
  rs.foldl reduceStep nullResult

/-- The value returned by `find_hash_par` (mine.rs line 174):
`Solution::new(best_hash.d, best_nonce.to_le_bytes())`. -/
def findHashParResult (st : SysState) : Solution :=
  let b := reduceBest (results st)
  ⟨b.hash.d, leBytes8 b.nonce⟩

/-! ### Nonce-range arithmetic (claim C1) -/

lemma startNonce_eq (cores id : Nat) (h : id ≤ cores) :
    startNonce cores id = u64Max / cores * id := by
  refine Nat.min_eq_left ?_
  calc u64Max / cores * id ≤ u64Max / cores * cores :=
        Nat.mul_le_mul_left _ h
    _ ≤ u64Max := Nat.div_mul_le_self _ _

/-- C1 (counterexample): the claim computes worker starts as
`2 ^ 64 / worker_count * i`, but the source (mine.rs line 100) divides
`u64::MAX = 2 ^ 64 - 1`, which differs already at `worker_count = 2`,
`i = 1`. -/
theorem C1_claim_counterexample :
    startNonce 2 1 = 2 ^ 63 - 1 ∧ 2 ^ 64 / 2 * 1 = 2 ^ 63 ∧
      startNonce 2 1 ≠ 2 ^ 64 / 2 * 1 := by
  refine ⟨by decide, by decide, by decide⟩

/-- C1 (amended): for every `worker_count >= 1`, worker `i`'s start nonce is
`(2 ^ 64 - 1) / worker_count * i` (the saturation never bites for
`i < worker_count`); the implied per-worker ranges are of equal size
`(2 ^ 64 - 1) / worker_count` except the last, are contiguous and
non-overlapping, their union is exactly `[0, 2 ^ 64)`, and the last range
absorbs the remainder. -/
theorem C1_nonce_partition (cores : Nat) (hc : 1 ≤ cores) :
    (∀ id, id < cores → startNonce cores id = u64Max / cores * id) ∧
    (∀ id, id + 1 < cores →
      workerEnd cores id - startNonce cores id = u64Max / cores) ∧
    (∀ id, id + 1 < cores → workerEnd cores id = startNonce cores (id + 1)) ∧
    (∀ x, x < u64Size →
      ∃ id, id < cores ∧ startNonce cores id ≤ x ∧ x < workerEnd cores id) ∧
    (∀ i j x, i < j → j < cores → startNonce cores i ≤ x →
      x < workerEnd cores i →
      ¬(startNonce cores j ≤ x ∧ x < workerEnd cores j)) ∧
    workerEnd cores (cores - 1) - startNonce cores (cores - 1)
      = u64Size - u64Max / cores * (cores - 1) := by
  have hstart : ∀ id, id ≤ cores → startNonce cores id = u64Max / cores * id :=
    fun id h => startNonce_eq cores id h
  refine ⟨fun id h => hstart id (le_of_lt h), ?_, ?_, ?_, ?_, ?_⟩
  · intro id h
    have h1 : workerEnd cores id = startNonce cores (id + 1) := by
      simp [workerEnd, h]
    rw [h1, hstart id (by omega), hstart (id + 1) (by omega), Nat.mul_add,
      Nat.mul_one, Nat.add_sub_cancel_left]
  · intro id h
    simp [workerEnd, h]
  · intro x hx
    by_cases hr : u64Max / cores = 0
    · refine ⟨cores - 1, by omega, ?_, ?_⟩
      · rw [hstart (cores - 1) (by omega), hr]
        omega
      · have : ¬(cores - 1 + 1 < cores) := by omega
        simp [workerEnd, this]
        exact hx
    · have hrpos : 0 < u64Max / cores := Nat.pos_of_ne_zero hr
      by_cases hj : x / (u64Max / cores) < cores - 1
      · refine ⟨x / (u64Max / cores), by omega, ?_, ?_⟩
        · rw [hstart _ (by omega), Nat.mul_comm]
          exact Nat.div_mul_le_self x (u64Max / cores)
        · have h2 : x / (u64Max / cores) + 1 < cores := by omega
          have h3 : workerEnd cores (x / (u64Max / cores))
              = u64Max / cores * (x / (u64Max / cores) + 1) := by
            rw [workerEnd, if_pos h2, hstart _ (by omega)]
          rw [h3, Nat.mul_succ]
          have h4 := Nat.div_add_mod x (u64Max / cores)
          have h5 := Nat.mod_lt x hrpos
          omega
      · refine ⟨cores - 1, by omega, ?_, ?_⟩
        · rw [hstart (cores - 1) (by omega)]
          calc u64Max / cores * (cores - 1)
              ≤ u64Max / cores * (x / (u64Max / cores)) :=
                Nat.mul_le_mul_left _ (by omega)
            _ ≤ x := by
                rw [Nat.mul_comm]
                exact Nat.div_mul_le_self x (u64Max / cores)
        · have : ¬(cores - 1 + 1 < cores) := by omega
          simp [workerEnd, this]
          exact hx
  · intro i j x hij hj hsi hei
    rintro ⟨hsj, _⟩
    have h1 : i + 1 < cores := by omega
    have h2 : workerEnd cores i = u64Max / cores * (i + 1) := by
      rw [workerEnd, if_pos h1, hstart _ (by omega)]
    have h3 : u64Max / cores * (i + 1) ≤ u64Max / cores * j :=
      Nat.mul_le_mul_left _ (by omega)
    rw [hstart j (le_of_lt hj)] at hsj
    omega
  · have h1 : ¬(cores - 1 + 1 < cores) := by omega
    rw [workerEnd, if_neg h1, hstart (cores - 1) (by omega)]

/-- C1 (witness): the amended partition statement instantiated at
`worker_count = 3`, worker 2. -/
theorem C1_nonce_partition_witness :
    startNonce 3 2 = u64Max / 3 * 2 :=
  (C1_nonce_partition 3 (by decide)).1 2 (by decide)

/-! ### Reducer lemmas (mine.rs lines 153-165) -/

lemma reduce_acc_le (rs : List (Option WorkerResult)) :
    ∀ acc : WorkerResult, acc.difficulty ≤ (rs.foldl reduceStep acc).difficulty := by
  induction rs with
  | nil => intro acc; exact le_refl _
  | cons r rs ih =>
    intro acc
    refine le_trans ?_ (ih (reduceStep acc r))
    cases r with
    | none => exact le_refl _
    | some w =>
      simp only [reduceStep]
      by_cases h : acc.difficulty < w.difficulty
      · rw [if_pos h]; omega
      · rw [if_neg h]

lemma reduce_ge (rs : List (Option WorkerResult)) :
    ∀ (acc w : WorkerResult), some w ∈ rs →
      w.difficulty ≤ (rs.foldl reduceStep acc).difficulty := by
  induction rs with
  | nil => intro acc w hw; simp at hw
  | cons r rs ih =>
    intro acc w hw
    rcases List.mem_cons.mp hw with h | h
    · have h2 : w.difficulty ≤ (reduceStep acc (some w)).difficulty := by
        simp only [reduceStep]
        by_cases hlt : acc.difficulty < w.difficulty
        · rw [if_pos hlt]
        · rw [if_neg hlt]; omega
      rw [← h]
      simp only [List.foldl_cons]
      exact le_trans h2 (reduce_acc_le rs _)
    · simp only [List.foldl_cons]
      exact ih (reduceStep acc r) w h

lemma reduce_mem (rs : List (Option WorkerResult)) :
    ∀ acc : WorkerResult,
      rs.foldl reduceStep acc = acc ∨ some (rs.foldl reduceStep acc) ∈ rs := by
  induction rs with
  | nil => intro acc; left; rfl
  | cons r rs ih =>
    intro acc
    rcases ih (reduceStep acc r) with h | h
    · simp only [List.foldl_cons]
      cases r with
      | none => left; rw [h]; rfl
      | some w =>
        by_cases hlt : acc.difficulty < w.difficulty
        · right
          have h2 : reduceStep acc (some w) = w := by
            simp only [reduceStep, if_pos hlt]
          rw [h, h2]
          exact List.mem_cons_self _ _
        · left
          have h2 : reduceStep acc (some w) = acc := by
            simp only [reduceStep, if_neg hlt]
          rw [h, h2]
    · right
      simp only [List.foldl_cons]
      exact List.mem_cons_of_mem _ h

lemma reduce_const (rs : List (Option WorkerResult)) :
    ∀ acc : WorkerResult, (∀ w, some w ∈ rs → w.difficulty ≤ acc.difficulty) →
      rs.foldl reduceStep acc = acc := by
  induction rs with
  | nil => intro acc _; rfl
  | cons r rs ih =>
    intro acc h
    have h1 : reduceStep acc r = acc := by
      cases r with
      | none => rfl
      | some w =>
        have hw := h w (List.mem_cons_self _ _)
        simp only [reduceStep]
        rw [if_neg (by omega)]
    simp only [List.foldl_cons, h1]
    exact ih acc (fun w hw => h w (List.mem_cons_of_mem _ hw))

lemma reduce_first_max (rs : List (Option WorkerResult)) :
    ∀ (p : Nat) (w acc : WorkerResult),
      rs[p]? = some (some w) →
      acc.difficulty < w.difficulty →
      (∀ (q : Nat) (w' : WorkerResult), rs[q]? = some (some w') →
        w'.difficulty ≤ w.difficulty) →
      (∀ (q : Nat) (w' : WorkerResult), q < p → rs[q]? = some (some w') →
        w'.difficulty < w.difficulty) →
      rs.foldl reduceStep acc = w := by
  induction rs with
  | nil => intro p w acc hp; simp at hp
  | cons r rs ih =>
    intro p w acc hp hacc hmax hfirst
    cases p with
    | zero =>
      have hr : r = some w := by simpa using hp
      subst hr
      have h1 : reduceStep acc (some w) = w := by
        simp only [reduceStep, if_pos hacc]
      simp only [List.foldl_cons, h1]
      refine reduce_const rs w ?_
      intro w' hw'
      rcases List.mem_iff_getElem?.mp hw' with ⟨q, hq⟩
      exact hmax (q + 1) w' (by simpa using hq)
    | succ q =>
      have hq : rs[q]? = some (some w) := by simpa using hp
      have hacc1 : (reduceStep acc r).difficulty < w.difficulty := by
        cases r with
        | none => exact hacc
        | some w' =>
          have hw' : w'.difficulty < w.difficulty :=
            hfirst 0 w' (Nat.succ_pos q) (by simp)
          simp only [reduceStep]
          by_cases hlt : acc.difficulty < w'.difficulty
          · rw [if_pos hlt]; exact hw'
          · rw [if_neg hlt]; exact hacc
      simp only [List.foldl_cons]
      exact ih q w (reduceStep acc r) hq hacc1
        (fun q' w' hq' => hmax (q' + 1) w' (by simpa using hq'))
        (fun q' w' hlt hq' => hfirst (q' + 1) w' (by omega) (by simpa using hq'))

/-- C3 (counterexample): on the collection holding the single triple
`(nonce 7, difficulty 0, default hash)`, the greatest-difficulty (and
first-encountered) triple is that one, yet the reducer returns the
synthetic initial accumulator `(0, 0, Hash::default())` instead, because
a triple replaces the accumulator only on strictly greater difficulty
(mine.rs line 159). -/
theorem C3_claim_counterexample :
    reduceBest [some ⟨7, 0, Hash.default⟩] = nullResult ∧
      (⟨7, 0, Hash.default⟩ : WorkerResult) ≠ nullResult :=
  ⟨rfl, by decide⟩

/-- C3 (amended): when some reported triple has positive difficulty, the
reducer returns the first-encountered triple of maximal difficulty, in
worker enumeration order; when every reported triple has difficulty 0 it
returns the null triple `(0, 0, Hash::default())` regardless of the
reported nonces. -/
theorem C3_reducer_first_max (rs : List (Option WorkerResult)) :
    (∀ (p : Nat) (w : WorkerResult), rs[p]? = some (some w) →
      0 < w.difficulty →
      (∀ (q : Nat) (w' : WorkerResult), rs[q]? = some (some w') →
        w'.difficulty ≤ w.difficulty) →
      (∀ (q : Nat) (w' : WorkerResult), q < p → rs[q]? = some (some w') →
        w'.difficulty < w.difficulty) →
      reduceBest rs = w) ∧
    ((∀ w, some w ∈ rs → w.difficulty = 0) → reduceBest rs = nullResult) := by
  constructor
  · intro p w hp hpos hmax hfirst
    exact reduce_first_max rs p w nullResult hp (by simpa [nullResult] using hpos)
      hmax hfirst
  · intro h
    exact reduce_const rs nullResult (fun w hw => by simp [h w hw])

/-- C3 (witness): the amended reducer statement applied to a singleton
collection with positive difficulty. -/
theorem C3_reducer_first_max_witness :
    reduceBest [some ⟨5, 2, Hash.default⟩] = ⟨5, 2, Hash.default⟩ := by
  refine (C3_reducer_first_max [some ⟨5, 2, Hash.default⟩]).1 0
    ⟨5, 2, Hash.default⟩ rfl (by decide) ?_ ?_
  · intro q w' hq
    cases q with
    | zero =>
      have : w' = ⟨5, 2, Hash.default⟩ := by simpa using hq.symm
      rw [this]
    | succ q' => simp at hq
  · intro q w' hlt _
    exact absurd hlt (Nat.not_lt_zero q)

/-- C8: a worker whose join failed is skipped by the reducer fold, which is
observably the same as contributing the null triple (difficulty 0, nonce 0)
or not being present at all: the selected result among the surviving
workers is unchanged, and no error leaves the reducer. -/
theorem C8_failed_worker_null (l1 l2 : List (Option WorkerResult)) :
    reduceBest (l1 ++ none :: l2) = reduceBest (l1 ++ some nullResult :: l2) ∧
    reduceBest (l1 ++ none :: l2) = reduceBest (l1 ++ l2) := by
  have h2 : ∀ acc : WorkerResult, reduceStep acc (some nullResult) = acc := by
    intro acc
    have hnot : ¬ acc.difficulty < nullResult.difficulty := by
      simp [nullResult]
    simp only [reduceStep]
    rw [if_neg hnot]
  constructor
  · simp only [reduceBest, List.foldl_append, List.foldl_cons, h2]
    rfl
  · simp only [reduceBest, List.foldl_append, List.foldl_cons]
    rfl

/-! ### Worker-step lemmas (mine.rs lines 115-146) -/

lemma updateBest_nonce (d : Nat) (hx : Hash) (s : WorkerState) :
    (updateBest d hx s).nonce = s.nonce := by
  unfold updateBest
  by_cases h : s.best_difficulty < d
  · rw [if_pos h]
  · rw [if_neg h]

lemma updateBest_le (d : Nat) (hx : Hash) (s : WorkerState) :
    s.best_difficulty ≤ (updateBest d hx s).best_difficulty ∧
      d ≤ (updateBest d hx s).best_difficulty := by
  unfold updateBest
  by_cases h : s.best_difficulty < d
  · rw [if_pos h]; exact ⟨le_of_lt h, le_refl d⟩
  · rw [if_neg h]
    constructor
    · exact le_refl _
    · show d ≤ s.best_difficulty
      omega

lemma workerBody_none (H : Nat → Option (Nat × Hash)) (t : Nat)
    (s : WorkerState) (h : H s.nonce = none) :
    workerBody H t s
      = ({ s with nonce := (s.nonce + 1) % u64Size, evals := s.evals + 1 }, false) := by
  unfold workerBody
  rw [h]

lemma workerBody_some (H : Nat → Option (Nat × Hash)) (t : Nat)
    (s : WorkerState) (d : Nat) (hx : Hash) (h : H s.nonce = some (d, hx)) :
    workerBody H t s
      = (if t ≤ (updateBest d hx s).best_difficulty then (updateBest d hx s, true)
         else ({ updateBest d hx s with
                 nonce := ((updateBest d hx s).nonce + 1) % u64Size }, false)) := by
  unfold workerBody
  rw [h]

lemma workerBody_break_of_reach (H : Nat → Option (Nat × Hash)) (t : Nat)
    (s : WorkerState) (d : Nat) (hx : Hash)
    (h : H s.nonce = some (d, hx)) (hd : t ≤ d) :
    (workerBody H t s).2 = true := by
  rw [workerBody_some H t s d hx h,
    if_pos (le_trans hd (updateBest_le d hx s).2)]

lemma workerBody_no_break_nonce (H : Nat → Option (Nat × Hash)) (t : Nat)
    (s : WorkerState) (h : (workerBody H t s).2 = false) :
    (workerBody H t s).1.nonce = (s.nonce + 1) % u64Size := by
  rcases hH : H s.nonce with _ | p
  · rw [workerBody_none H t s hH]
  · rcases p with ⟨d, hx⟩
    rw [workerBody_some H t s d hx hH]
    rw [workerBody_some H t s d hx hH] at h
    by_cases hle : t ≤ (updateBest d hx s).best_difficulty
    · rw [if_pos hle] at h
      simp at h
    · rw [if_neg hle]
      simp [updateBest_nonce]

lemma workerBody_best_mono (H : Nat → Option (Nat × Hash)) (t : Nat)
    (s : WorkerState) :
    s.best_difficulty ≤ (workerBody H t s).1.best_difficulty := by
  rcases hH : H s.nonce with _ | p
  · rw [workerBody_none H t s hH]
  · rcases p with ⟨d, hx⟩
    rw [workerBody_some H t s d hx hH]
    by_cases hle : t ≤ (updateBest d hx s).best_difficulty
    · rw [if_pos hle]
      exact (updateBest_le d hx s).1
    · rw [if_neg hle]
      exact (updateBest_le d hx s).1

/-- A worker state is honest when its recorded best triple really is the
output of the hash primitive at the recorded best nonce (vacuous for the
initial difficulty 0). -/
def HonestS (H : Nat → Option (Nat × Hash)) (s : WorkerState) : Prop :=
  0 < s.best_difficulty → H s.best_nonce = some (s.best_difficulty, s.best_hash)

/-- Honesty of a returned worker triple. -/
def HonestR (H : Nat → Option (Nat × Hash)) (r : WorkerResult) : Prop :=
  0 < r.difficulty → H r.nonce = some (r.difficulty, r.hash)

/-- Honesty of a worker in either status. -/
def HonestW (H : Nat → Option (Nat × Hash)) : WStatus → Prop
  | .running s => HonestS H s
  | .done r _ => HonestR H r

lemma updateBest_honest (H : Nat → Option (Nat × Hash)) (d : Nat) (hx : Hash)
    (s : WorkerState) (hH : H s.nonce = some (d, hx)) (hs : HonestS H s) :
    HonestS H (updateBest d hx s) := by
  unfold updateBest
  by_cases h : s.best_difficulty < d
  · rw [if_pos h]
    intro _
    exact hH
  · rw [if_neg h]
    exact hs

lemma workerBody_honest (H : Nat → Option (Nat × Hash)) (t : Nat)
    (s : WorkerState) (hs : HonestS H s) :
    HonestS H (workerBody H t s).1 := by
  rcases hH : H s.nonce with _ | p
  · rw [workerBody_none H t s hH]
    exact hs
  · rcases p with ⟨d, hx⟩
    rw [workerBody_some H t s d hx hH]
    by_cases hle : t ≤ (updateBest d hx s).best_difficulty
    · rw [if_pos hle]
      exact updateBest_honest H d hx s hH hs
    · rw [if_neg hle]
      exact updateBest_honest H d hx s hH hs

/-! ### Turn and round lemmas -/

lemma workerTurn_true (H : Nat → Option (Nat × Hash)) (t : Nat) (w : WStatus) :
    workerTurn H t true w = (finishNow w, true) := by
  cases w with
  | done r e => rfl
  | running s => rfl

lemma workerTurn_false (H : Nat → Option (Nat × Hash)) (t : Nat)
    (s : WorkerState) :
    workerTurn H t false (.running s)
      = (match workerBody H t s with
         | (s1, true) =>
             (WStatus.done ⟨s1.best_nonce, s1.best_difficulty, s1.best_hash⟩ s1.evals, true)
         | (s1, false) => (WStatus.running s1, false)) := rfl

lemma workerTurn_false_break (H : Nat → Option (Nat × Hash)) (t : Nat)
    (s s1 : WorkerState) (hb : workerBody H t s = (s1, true)) :
    workerTurn H t false (.running s)
      = (.done ⟨s1.best_nonce, s1.best_difficulty, s1.best_hash⟩ s1.evals, true) := by
  rw [workerTurn_false, hb]

lemma workerTurn_false_cont (H : Nat → Option (Nat × Hash)) (t : Nat)
    (s s1 : WorkerState) (hb : workerBody H t s = (s1, false)) :
    workerTurn H t false (.running s) = (.running s1, false) := by
  rw [workerTurn_false, hb]

lemma roundGo_true (H : Nat → Option (Nat × Hash)) (t : Nat) :
    ∀ ws : List WStatus, roundGo H t true ws = (true, ws.map finishNow) := by
  intro ws
  induction ws with
  | nil => rfl
  | cons w ws ih =>
    simp only [roundGo, workerTurn_true, List.map_cons]
    rw [ih]

lemma roundGo_flag_true (H : Nat → Option (Nat × Hash)) (t : Nat)
    (ws : List WStatus) : (roundGo H t true ws).1 = true := by
  rw [roundGo_true]

lemma roundGo_done (H : Nat → Option (Nat × Hash)) (t : Nat) :
    ∀ (ws : List WStatus) (f : Bool) (p : Nat) (r : WorkerResult) (e : Nat),
      ws[p]? = some (.done r e) →
      ((roundGo H t f ws).2)[p]? = some (.done r e) := by
  intro ws
  induction ws with
  | nil => intro f p r e hp; simp at hp
  | cons w ws ih =>
    intro f p r e hp
    cases p with
    | zero =>
      have hw : w = .done r e := by simpa using hp
      subst hw
      simp only [roundGo, workerTurn]
      simp
    | succ q =>
      have hq : ws[q]? = some (.done r e) := by simpa using hp
      simp only [roundGo]
      simpa using ih (workerTurn H t f w).2 q r e hq

lemma workerTurn_honest (H : Nat → Option (Nat × Hash)) (t : Nat) (f : Bool)
    (w : WStatus) (hw : HonestW H w) : HonestW H (workerTurn H t f w).1 := by
  cases w with
  | done r e => exact hw
  | running s =>
    cases f with
    | true =>
      rw [workerTurn_true]
      exact hw
    | false =>
      rcases hb : workerBody H t s with ⟨s1, b⟩
      have h1 : HonestS H s1 := by
        have h2 := workerBody_honest H t s hw
        rw [hb] at h2
        exact h2
      cases b with
      | true =>
        rw [workerTurn_false_break H t s s1 hb]
        exact h1
      | false =>
        rw [workerTurn_false_cont H t s s1 hb]
        exact h1

lemma roundGo_honest (H : Nat → Option (Nat × Hash)) (t : Nat) :
    ∀ (ws : List WStatus) (f : Bool),
      (∀ w ∈ ws, HonestW H w) →
      ∀ w' ∈ (roundGo H t f ws).2, HonestW H w' := by
  intro ws
  induction ws with
  | nil => intro f _ w' hw'; simp [roundGo] at hw'
  | cons w ws ih =>
    intro f h w' hw'
    simp only [roundGo] at hw'
    rcases List.mem_cons.mp hw' with h1 | h1
    · rw [h1]
      exact workerTurn_honest H t f w (h w (List.mem_cons_self _ _))
    · exact ih (workerTurn H t f w).2
        (fun x hx => h x (List.mem_cons_of_mem _ hx)) w' h1

lemma roundGo_progress (H : Nat → Option (Nat × Hash)) (t n : Nat)
    (d0 : Nat) (hx0 : Hash) (hHn : H n = some (d0, hx0)) (hd0 : t ≤ d0)
    (hn : n < u64Size) :
    ∀ (ws : List WStatus) (p : Nat) (s : WorkerState),
      ws[p]? = some (.running s) → s.nonce ≤ n →
      (roundGo H t false ws).1 = true ∨
      ∃ s1 : WorkerState, ((roundGo H t false ws).2)[p]? = some (.running s1) ∧
        s1.nonce = s.nonce + 1 ∧ s1.nonce ≤ n := by
  intro ws
  induction ws with
  | nil => intro p s hp _; simp at hp
  | cons w ws ih =>
    intro p s hp hs
    cases p with
    | zero =>
      have hw : w = .running s := by simpa using hp
      subst hw
      rcases hb : workerBody H t s with ⟨s1, b⟩
      cases b with
      | true =>
        left
        simp only [roundGo, workerTurn_false_break H t s s1 hb]
        exact roundGo_flag_true H t ws
      | false =>
        have hlt : s.nonce < n := by
          rcases Nat.lt_or_ge s.nonce n with h | h
          · exact h
          · have heq : s.nonce = n := le_antisymm hs h
            have hbrk := workerBody_break_of_reach H t s d0 hx0
              (by rw [heq]; exact hHn) hd0
            rw [hb] at hbrk
            simp at hbrk
        have h2 : s1.nonce = (s.nonce + 1) % u64Size := by
          have h3 := workerBody_no_break_nonce H t s (by rw [hb])
          rw [hb] at h3
          exact h3
        have hmod : (s.nonce + 1) % u64Size = s.nonce + 1 :=
          Nat.mod_eq_of_lt (by omega)
        rw [hmod] at h2
        right
        refine ⟨s1, ?_, h2, by omega⟩
        simp only [roundGo, workerTurn_false_cont H t s s1 hb]
        simp
    | succ q =>
      have hq : ws[q]? = some (.running s) := by simpa using hp
      cases hf : (workerTurn H t false w).2 with
      | true =>
        left
        simp only [roundGo]
        rw [hf]
        exact roundGo_flag_true H t ws
      | false =>
        rcases ih q s hq hs with h | ⟨s1, h1, h2, h3⟩
        · left
          simp only [roundGo]
          rw [hf]
          exact h
        · right
          refine ⟨s1, ?_, h2, h3⟩
          simp only [roundGo]
          rw [hf]
          simpa using h1

/-! ### System-level lemmas -/

lemma sysRun_add (H : Nat → Option (Nat × Hash)) (t : Nat) :
    ∀ (b a : Nat) (st : SysState),
      sysRun H t (a + b) st = sysRun H t a (sysRun H t b st) := by
  intro b
  induction b with
  | zero => intro a st; rfl
  | succ b ih =>
    intro a st
    have h1 : a + (b + 1) = (a + b) + 1 := rfl
    rw [h1]
    simp only [sysRun]
    exact ih a (sysRound H t st)

lemma roundGo_all_done (H : Nat → Option (Nat × Hash)) (t : Nat) :
    ∀ (ws : List WStatus) (f : Bool),
      (∀ w ∈ ws, isDone w = true) → roundGo H t f ws = (f, ws) := by
  intro ws
  induction ws with
  | nil => intro f _; rfl
  | cons w ws ih =>
    intro f h
    have hw : isDone w = true := h w (List.mem_cons_self _ _)
    rcases w with s | ⟨r, e⟩
    · simp [isDone] at hw
    · simp only [roundGo, workerTurn]
      rw [ih f (fun x hx => h x (List.mem_cons_of_mem _ hx))]

lemma sysRound_done_id (H : Nat → Option (Nat × Hash)) (t : Nat)
    (st : SysState) (h : allDone st = true) : sysRound H t st = st := by
  rcases st with ⟨f, ws⟩
  have h1 : ∀ w ∈ ws, isDone w = true := by
    intro w hw
    exact List.all_eq_true.mp h w hw
  simp only [sysRound]
  rw [roundGo_all_done H t ws f h1]

lemma sysRun_done_id (H : Nat → Option (Nat × Hash)) (t : Nat)
    (st : SysState) (h : allDone st = true) :
    ∀ R : Nat, sysRun H t R st = st := by
  intro R
  induction R with
  | zero => rfl
  | succ R ih =>
    simp only [sysRun]
    rw [sysRound_done_id H t st h]
    exact ih

lemma isDone_finishNow (w : WStatus) : isDone (finishNow w) = true := by
  cases w with
  | running s => rfl
  | done r e => rfl

lemma sysRound_flag_true (H : Nat → Option (Nat × Hash)) (t : Nat)
    (st : SysState) (h : st.flag = true) :
    sysRound H t st = ⟨true, st.workers.map finishNow⟩ := by
  rcases st with ⟨f, ws⟩
  have hf : f = true := h
  subst hf
  simp only [sysRound]
  rw [roundGo_true]

lemma allDone_after_true (H : Nat → Option (Nat × Hash)) (t : Nat)
    (st : SysState) (h : st.flag = true) :
    allDone (sysRound H t st) = true := by
  rw [sysRound_flag_true H t st h]
  have h1 : ∀ w ∈ st.workers.map finishNow, isDone w = true := by
    intro w hw
    rcases List.mem_map.mp hw with ⟨x, _, hx⟩
    rw [← hx]
    exact isDone_finishNow x
  exact List.all_eq_true.mpr h1

lemma sysRound_flag_mono (H : Nat → Option (Nat × Hash)) (t : Nat)
    (st : SysState) (h : st.flag = true) : (sysRound H t st).flag = true := by
  rw [sysRound_flag_true H t st h]

lemma sysRun_flag_mono (H : Nat → Option (Nat × Hash)) (t : Nat) :
    ∀ (R : Nat) (st : SysState), st.flag = true →
      (sysRun H t R st).flag = true := by
  intro R
  induction R with
  | zero => intro st h; exact h
  | succ R ih =>
    intro st h
    simp only [sysRun]
    exact ih _ (sysRound_flag_mono H t st h)

lemma sysRun_terminates (H : Nat → Option (Nat × Hash)) (t n d0 : Nat)
    (hx0 : Hash) (hHn : H n = some (d0, hx0)) (hd0 : t ≤ d0)
    (hn : n < u64Size) :
    ∀ (k : Nat) (st : SysState) (p : Nat) (s : WorkerState),
      st.flag = false → st.workers[p]? = some (.running s) → s.nonce ≤ n →
      n + 1 - s.nonce ≤ k →
      ∃ R : Nat, allDone (sysRun H t R st) = true := by
  intro k
  induction k with
  | zero => intro st p s _ _ hs hk; omega
  | succ k ih =>
    intro st p s hf hp hs hk
    rcases st with ⟨f, ws⟩
    have hf1 : f = false := hf
    subst hf1
    have hp1 : ws[p]? = some (.running s) := hp
    rcases roundGo_progress H t n d0 hx0 hHn hd0 hn ws p s hp1 hs
      with h | ⟨s1, h1, h2, h3⟩
    · have hflag : (sysRound H t ⟨false, ws⟩).flag = true := h
      refine ⟨2, ?_⟩
      simp only [sysRun]
      exact allDone_after_true H t _ hflag
    · cases hflag : (sysRound H t ⟨false, ws⟩).flag with
      | true =>
        refine ⟨2, ?_⟩
        simp only [sysRun]
        exact allDone_after_true H t _ hflag
      | false =>
        rcases ih (sysRound H t ⟨false, ws⟩) p s1 hflag h1 h3 (by omega)
          with ⟨R, hR⟩
        refine ⟨R + 1, ?_⟩
        simp only [sysRun]
        exact hR

lemma initWorker_honest (H : Nat → Option (Nat × Hash)) (cores id : Nat) :
    HonestW H (initWorker cores id) := by
  unfold initWorker
  by_cases h : cores ≤ id
  · rw [if_pos h]
    intro h0
    simp [nullResult] at h0
  · rw [if_neg h]
    intro h0
    simp at h0

lemma sysRun_honest (H : Nat → Option (Nat × Hash)) (t : Nat) :
    ∀ (R : Nat) (st : SysState),
      (∀ w ∈ st.workers, HonestW H w) →
      ∀ w' ∈ (sysRun H t R st).workers, HonestW H w' := by
  intro R
  induction R with
  | zero => intro st h; exact h
  | succ R ih =>
    intro st h
    simp only [sysRun]
    refine ih (sysRound H t st) ?_
    intro w hw
    exact roundGo_honest H t st.workers st.flag h w hw

lemma results_honest (H : Nat → Option (Nat × Hash)) (st : SysState)
    (h : ∀ w ∈ st.workers, HonestW H w) :
    ∀ w : WorkerResult, some w ∈ results st → HonestR H w := by
  intro w hw
  rcases List.mem_map.mp hw with ⟨x, hx, hxw⟩
  rcases x with s | ⟨r, e⟩
  · simp at hxw
  · have hrw : r = w := by simpa using hxw
    rw [← hrw]
    exact h _ hx

lemma results_getElem (st : SysState) (p : Nat) (r : WorkerResult) (e : Nat)
    (hp : st.workers[p]? = some (.done r e)) :
    (results st)[p]? = some (some r) := by
  unfold results
  rw [List.getElem?_map, hp]
  rfl

lemma sysRun_done_preserved (H : Nat → Option (Nat × Hash)) (t : Nat) :
    ∀ (R : Nat) (st : SysState) (p : Nat) (r : WorkerResult) (e : Nat),
      st.workers[p]? = some (.done r e) →
      (sysRun H t R st).workers[p]? = some (.done r e) := by
  intro R
  induction R with
  | zero => intro st p r e h; exact h
  | succ R ih =>
    intro st p r e h
    simp only [sysRun]
    exact ih _ p r e (roundGo_done H t st.workers st.flag p r e h)

/-- A sample total hash primitive used to instantiate proved theorems at
concrete inputs: every nonce hashes successfully with difficulty 1. -/
def Hsample : Nat → Option (Nat × Hash) := fun _ => some (1, Hash.default)

/-- A sample always-failing hash primitive. -/
def Hnone : Nat → Option (Nat × Hash) := fun _ => none

/-! ### Claims about the stop flag and error handling -/

/-- C10: within one search call the stop flag is monotone: it is created
unset (mine.rs line 89), the only store any worker ever performs writes
`true` (line 141), so once any worker sets it, it remains set for the rest
of the call and is never cleared. -/
theorem C10_stop_flag_monotone (H : Nat → Option (Nat × Hash))
    (t cores : Nat) (ids : List Nat) :
    (initState cores ids).flag = false ∧
    (∀ st : SysState, st.flag = true → (sysRound H t st).flag = true) ∧
    (∀ (st : SysState) (R R' : Nat), R ≤ R' →
      (sysRun H t R st).flag = true → (sysRun H t R' st).flag = true) := by
  refine ⟨rfl, fun st h => sysRound_flag_mono H t st h, ?_⟩
  intro st R R' hle h
  have h1 : R' = (R' - R) + R := by omega
  rw [h1, sysRun_add]
  exact sysRun_flag_mono H t (R' - R) _ h

/-- C10 (witness): monotonicity instantiated on a concrete run. -/
theorem C10_stop_flag_monotone_witness :
    (sysRun Hsample 1 3 ⟨true, []⟩).flag = true :=
  (C10_stop_flag_monotone Hsample 1 0 []).2.2 ⟨true, []⟩ 0 3 (by decide) rfl

/-- C7: a worker whose core id is at least the requested worker count
returns the null triple (nonce 0, difficulty 0, default hash) immediately,
with zero hash-primitive invocations, and stays in that state for the whole
call; a contribution with difficulty 0 can never win the reduction while
any worker reports positive difficulty, and when every contribution has
difficulty 0 the reduction is exactly the null triple. -/
theorem C7_excess_workers_null (H : Nat → Option (Nat × Hash))
    (t cores : Nat) (ids : List Nat) (p id : Nat)
    (hid : ids[p]? = some id) (hge : cores ≤ id) :
    (∀ R : Nat, (sysRun H t R (initState cores ids)).workers[p]?
        = some (.done nullResult 0)) ∧
    (∀ (rs : List (Option WorkerResult)) (w : WorkerResult),
      some w ∈ rs → 0 < w.difficulty → 0 < (reduceBest rs).difficulty) ∧
    (∀ rs : List (Option WorkerResult),
      (∀ w : WorkerResult, some w ∈ rs → w.difficulty = 0) →
      reduceBest rs = nullResult) := by
  refine ⟨?_, ?_, ?_⟩
  · intro R
    have h0 : (initState cores ids).workers[p]? = some (.done nullResult 0) := by
      show (ids.map (initWorker cores))[p]? = some (.done nullResult 0)
      rw [List.getElem?_map, hid]
      simp [initWorker, hge]
    exact sysRun_done_preserved H t R (initState cores ids) p nullResult 0 h0
  · intro rs w hw hpos
    have h1 := reduce_ge rs nullResult w hw
    unfold reduceBest
    omega
  · intro rs h
    exact reduce_const rs nullResult (fun w hw => by simp [h w hw])

/-- C7 (witness): a call with one enumerated core id 5 but worker count 2:
the worker stays at the null result through four rounds. -/
theorem C7_excess_workers_null_witness :
    (sysRun Hsample 1 4 (initState 2 [5])).workers[0]?
      = some (.done nullResult 0) :=
  (C7_excess_workers_null Hsample 1 2 [5] 0 5 rfl (by decide)).1 4

/-- C4 (counterexample): with target difficulty 0 and a hash primitive
failing on the scanned nonce, the worker's best difficulty (0) is greater
than or equal to the target after the iteration's hash evaluation, yet the
iteration neither exits the loop nor stores to the stop flag: the exit
check of mine.rs line 140 runs only inside the `if let Ok` block, so the
claimed "if and only if" fails on failed evaluations. -/
theorem C4_claim_counterexample :
    (workerBody Hnone 0 ⟨0, 0, 0, Hash.default, 0⟩).2 = false ∧
    0 ≤ ((workerBody Hnone 0 ⟨0, 0, 0, Hash.default, 0⟩).1).best_difficulty :=
  ⟨rfl, Nat.zero_le _⟩

/-- C4 (amended): an iteration of the worker loop body (run when the stop
flag was observed unset) stores `true` to the stop flag and exits the loop
if and only if its hash evaluation succeeded and the worker's best
difficulty is at least the target afterwards; while the best difficulty is
below the target it never exits, never stores the flag; and a worker that
observes the flag set exits immediately with its current best, without
writing the flag. -/
theorem C4_exit_iff (H : Nat → Option (Nat × Hash)) (t : Nat)
    (s : WorkerState) :
    ((workerBody H t s).2 = true ↔
      (H s.nonce).isSome = true ∧ t ≤ (workerBody H t s).1.best_difficulty) ∧
    ((workerBody H t s).1.best_difficulty < t → (workerBody H t s).2 = false) ∧
    workerTurn H t true (.running s)
      = (.done ⟨s.best_nonce, s.best_difficulty, s.best_hash⟩ s.evals, true) := by
  have hiff : (workerBody H t s).2 = true ↔
      (H s.nonce).isSome = true ∧ t ≤ (workerBody H t s).1.best_difficulty := by
    rcases hH : H s.nonce with _ | ⟨d, hx⟩
    · rw [workerBody_none H t s hH]
      simp
    · rw [workerBody_some H t s d hx hH]
      by_cases hle : t ≤ (updateBest d hx s).best_difficulty
      · rw [if_pos hle]
        simp [hle]
      · rw [if_neg hle]
        simp [hle]
  refine ⟨hiff, ?_, workerTurn_true H t (.running s)⟩
  intro hlt
  cases hsnd : (workerBody H t s).2 with
  | false => rfl
  | true => exact absurd (hiff.mp hsnd).2 (by omega)

/-- C4 (witness): the amended exit condition at a concrete input where one
successful evaluation reaches the target. -/
theorem C4_exit_iff_witness :
    (workerBody Hsample 1 ⟨0, 0, 0, Hash.default, 0⟩).2 = true :=
  (C4_exit_iff Hsample 1 ⟨0, 0, 0, Hash.default, 0⟩).1.mpr ⟨rfl, by decide⟩

/-- C6: on a nonce where the hash primitive fails, the iteration leaves the
best triple untouched, does not exit the loop, does not store to the stop
flag, and moves on to the next nonce; nothing of the failure is visible to
the caller (only the ghost evaluation counter advances). -/
theorem C6_hash_error_skipped (H : Nat → Option (Nat × Hash)) (t : Nat)
    (s : WorkerState) (h : H s.nonce = none) :
    (workerBody H t s).1.best_nonce = s.best_nonce ∧
    (workerBody H t s).1.best_difficulty = s.best_difficulty ∧
    (workerBody H t s).1.best_hash = s.best_hash ∧
    (workerBody H t s).1.nonce = (s.nonce + 1) % u64Size ∧
    (workerBody H t s).1.evals = s.evals + 1 ∧
    (workerBody H t s).2 = false := by
  rw [workerBody_none H t s h]
  exact ⟨rfl, rfl, rfl, rfl, rfl, rfl⟩

/-- C6 (witness): the failure-skip behaviour at a concrete state. -/
theorem C6_hash_error_skipped_witness :
    (workerBody Hnone 1 ⟨3, 3, 0, Hash.default, 0⟩).2 = false :=
  (C6_hash_error_skipped Hnone 1 ⟨3, 3, 0, Hash.default, 0⟩ rfl).2.2.2.2.2

/-! ### Claims about termination and the returned solution -/

lemma initState_running (cores : Nat) (ids : List Nat) (p id : Nat)
    (hid : ids[p]? = some id) (hlt : id < cores) :
    (initState cores ids).workers[p]?
      = some (.running ⟨startNonce cores id, startNonce cores id, 0,
          Hash.default, 0⟩) := by
  have h1 : initWorker cores id
      = .running ⟨startNonce cores id, startNonce cores id, 0, Hash.default, 0⟩ := by
    unfold initWorker
    rw [if_neg (by omega)]
  show (ids.map (initWorker cores))[p]? = _
  rw [List.getElem?_map, hid]
  show some (initWorker cores id) = _
  rw [h1]

/-- C5: provided the target difficulty is reachable at some nonce of a
scanning worker's range, the call always completes: the system reaches a
state where every worker's loop has terminated, the state then never
changes again, and exactly one `Solution` value is produced; no error is
propagated (the model's result type has no error case). -/
theorem C5_search_always_completes (H : Nat → Option (Nat × Hash))
    (t cores : Nat) (ids : List Nat) (p id n d0 : Nat) (hx0 : Hash)
    (hid : ids[p]? = some id) (hlt : id < cores)
    (hstart : startNonce cores id ≤ n) (hn : n < u64Size)
    (hH : H n = some (d0, hx0)) (hd : t ≤ d0) :
    ∃ R : Nat, allDone (sysRun H t R (initState cores ids)) = true ∧
      ∀ R' : Nat, R ≤ R' →
        sysRun H t R' (initState cores ids)
          = sysRun H t R (initState cores ids) ∧
        findHashParResult (sysRun H t R' (initState cores ids))
          = findHashParResult (sysRun H t R (initState cores ids)) := by
  have hw0 := initState_running cores ids p id hid hlt
  obtain ⟨R, hR⟩ := sysRun_terminates H t n d0 hx0 hH hd hn
    (n + 1 - startNonce cores id) (initState cores ids) p
    ⟨startNonce cores id, startNonce cores id, 0, Hash.default, 0⟩
    rfl hw0 hstart (le_refl _)
  refine ⟨R, hR, ?_⟩
  intro R' hle
  have h1 : R' = (R' - R) + R := by omega
  constructor
  · rw [h1, sysRun_add, sysRun_done_id H t _ hR]
  · rw [h1, sysRun_add, sysRun_done_id H t _ hR]

/-- C5 (witness): the completion statement on a one-worker instance whose
first scanned nonce reaches the target. -/
theorem C5_search_always_completes_witness :
    ∃ R : Nat, allDone (sysRun Hsample 1 R (initState 1 [0])) = true ∧
      ∀ R' : Nat, R ≤ R' →
        sysRun Hsample 1 R' (initState 1 [0])
          = sysRun Hsample 1 R (initState 1 [0]) ∧
        findHashParResult (sysRun Hsample 1 R' (initState 1 [0]))
          = findHashParResult (sysRun Hsample 1 R (initState 1 [0])) :=
  C5_search_always_completes Hsample 1 1 [0] 0 0 0 1 Hash.default rfl
    (by decide) (by decide) (by decide) rfl (by decide)

/-- C2: whenever the target difficulty is reachable within the scan of
some worker, the search terminates, and recomputing the hash primitive at
the returned best nonce yields a difficulty at least the best difficulty
reported by any single worker, and at least the target whenever any worker
reached the target; the returned `Solution` carries exactly the winning
digest and the little-endian bytes of the winning nonce. -/
theorem C2_solution_dominates (H : Nat → Option (Nat × Hash))
    (t cores : Nat) (ids : List Nat) (p id n d0 : Nat) (hx0 : Hash)
    (hid : ids[p]? = some id) (hlt : id < cores)
    (hstart : startNonce cores id ≤ n) (hn : n < u64Size)
    (hH : H n = some (d0, hx0)) (hd : t ≤ d0) :
    ∃ (R : Nat) (st : SysState), st = sysRun H t R (initState cores ids) ∧
      allDone st = true ∧
      (∀ w : WorkerResult, some w ∈ results st →
        w.difficulty ≤ (reduceBest (results st)).difficulty) ∧
      (∀ (d' : Nat) (hx' : Hash),
        H (reduceBest (results st)).nonce = some (d', hx') →
        (∀ w : WorkerResult, some w ∈ results st → w.difficulty ≤ d') ∧
        ((∃ w : WorkerResult, some w ∈ results st ∧ t ≤ w.difficulty) →
          t ≤ d')) ∧
      (findHashParResult st).d = (reduceBest (results st)).hash.d ∧
      (findHashParResult st).n = leBytes8 (reduceBest (results st)).nonce := by
  have hw0 := initState_running cores ids p id hid hlt
  obtain ⟨R, hR⟩ := sysRun_terminates H t n d0 hx0 hH hd hn
    (n + 1 - startNonce cores id) (initState cores ids) p
    ⟨startNonce cores id, startNonce cores id, 0, Hash.default, 0⟩
    rfl hw0 hstart (le_refl _)
  have hge : ∀ w : WorkerResult,
      some w ∈ results (sysRun H t R (initState cores ids)) →
      w.difficulty
        ≤ (reduceBest (results (sysRun H t R (initState cores ids)))).difficulty := by
    intro w hw
    have h1 := reduce_ge (results (sysRun H t R (initState cores ids)))
      nullResult w hw
    unfold reduceBest
    exact h1
  refine ⟨R, sysRun H t R (initState cores ids), rfl, hR, hge, ?_, rfl, rfl⟩
  have hhon : ∀ w' ∈ (sysRun H t R (initState cores ids)).workers,
      HonestW H w' := by
    refine sysRun_honest H t R (initState cores ids) ?_
    intro w hw
    rcases List.mem_map.mp hw with ⟨i, _, hi⟩
    rw [← hi]
    exact initWorker_honest H cores i
  intro d' hx' hH'
  by_cases hbd :
      (reduceBest (results (sysRun H t R (initState cores ids)))).difficulty = 0
  · constructor
    · intro w hw
      have h2 := hge w hw
      omega
    · rintro ⟨w, hw, htw⟩
      have h2 := hge w hw
      omega
  · have hmem : some (reduceBest (results (sysRun H t R (initState cores ids))))
        ∈ results (sysRun H t R (initState cores ids)) := by
      rcases reduce_mem (results (sysRun H t R (initState cores ids)))
        nullResult with h | h
      · exfalso
        apply hbd
        unfold reduceBest
        rw [h]
        rfl
      · unfold reduceBest
        exact h
    have hhr : HonestR H
        (reduceBest (results (sysRun H t R (initState cores ids)))) :=
      results_honest H _ hhon _ hmem
    have hbe := hhr (Nat.pos_of_ne_zero hbd)
    rw [hbe] at hH'
    have hpair := Option.some.inj hH'
    have hd' :
        (reduceBest (results (sysRun H t R (initState cores ids)))).difficulty
          = d' := congrArg Prod.fst hpair
    constructor
    · intro w hw
      have h2 := hge w hw
      omega
    · rintro ⟨w, hw, htw⟩
      have h2 := hge w hw
      omega

/-- C2 (witness): the dominance statement on a one-worker instance whose
first scanned nonce reaches the target. -/
theorem C2_solution_dominates_witness :
    ∃ (R : Nat) (st : SysState), st = sysRun Hsample 1 R (initState 1 [0]) ∧
      allDone st = true ∧
      (∀ w : WorkerResult, some w ∈ results st →
        w.difficulty ≤ (reduceBest (results st)).difficulty) ∧
      (∀ (d' : Nat) (hx' : Hash),
        Hsample (reduceBest (results st)).nonce = some (d', hx') →
        (∀ w : WorkerResult, some w ∈ results st → w.difficulty ≤ d') ∧
        ((∃ w : WorkerResult, some w ∈ results st ∧ 1 ≤ w.difficulty) →
          1 ≤ d')) ∧
      (findHashParResult st).d = (reduceBest (results st)).hash.d ∧
      (findHashParResult st).n = leBytes8 (reduceBest (results st)).nonce :=
  C2_solution_dominates Hsample 1 1 [0] 0 0 0 1 Hash.default rfl
    (by decide) (by decide) (by decide) rfl (by decide)

/-! ### Claim C9: target difficulty 0 -/

lemma finishNow_initWorker (cores i : Nat) :
    ∃ nn : Nat, finishNow (initWorker cores i) = .done ⟨nn, 0, Hash.default⟩ 0 := by
  unfold initWorker
  by_cases h : cores ≤ i
  · rw [if_pos h]
    exact ⟨0, rfl⟩
  · rw [if_neg h]
    exact ⟨startNonce cores i, rfl⟩

/-- C9: with target difficulty 0 and a first enumerated core id 0, as soon
as the first worker's first hash evaluation succeeds the call stops within
one round: every worker terminates after at most one hash evaluation, the
reducer's winning nonce is the first worker's own start nonce, and the
returned `Solution` carries its little-endian bytes. -/
theorem C9_target_zero_first_worker (cores : Nat) (hc : 1 ≤ cores)
    (ids1 : List Nat) (H : Nat → Option (Nat × Hash)) (d0 : Nat) (hx0 : Hash)
    (h0 : H 0 = some (d0, hx0)) :
    allDone (sysRun H 0 1 (initState cores (0 :: ids1))) = true ∧
    (∀ w ∈ (sysRun H 0 1 (initState cores (0 :: ids1))).workers,
      workerEvals w ≤ 1) ∧
    (reduceBest (results (sysRun H 0 1 (initState cores (0 :: ids1))))).nonce
      = startNonce cores 0 ∧
    (findHashParResult (sysRun H 0 1 (initState cores (0 :: ids1)))).n
      = leBytes8 (startNonce cores 0) := by
  have h00 : startNonce cores 0 = 0 := by
    unfold startNonce
    simp
  have hhead : initWorker cores 0 = .running ⟨0, 0, 0, Hash.default, 0⟩ := by
    unfold initWorker
    rw [if_neg (by omega), h00]
  set u := updateBest d0 hx0 ⟨0, 0, 0, Hash.default, 0⟩ with hu
  have hbody : workerBody H 0 ⟨0, 0, 0, Hash.default, 0⟩ = (u, true) := by
    rw [workerBody_some H 0 ⟨0, 0, 0, Hash.default, 0⟩ d0 hx0 h0]
    rw [if_pos (Nat.zero_le _)]
  have hun : u.best_nonce = 0 := by
    rw [hu]
    unfold updateBest
    by_cases h : (⟨0, 0, 0, Hash.default, 0⟩ : WorkerState).best_difficulty < d0
    · rw [if_pos h]
    · rw [if_neg h]
  have hue : u.evals = 1 := by
    rw [hu]
    unfold updateBest
    by_cases h : (⟨0, 0, 0, Hash.default, 0⟩ : WorkerState).best_difficulty < d0
    · rw [if_pos h]
    · rw [if_neg h]
  have hround : roundGo H 0 false
      (initWorker cores 0 :: ids1.map (initWorker cores))
      = (true, WStatus.done ⟨u.best_nonce, u.best_difficulty, u.best_hash⟩ u.evals
          :: (ids1.map (initWorker cores)).map finishNow) := by
    have hturn : workerTurn H 0 false (initWorker cores 0)
        = (.done ⟨u.best_nonce, u.best_difficulty, u.best_hash⟩ u.evals, true) := by
      rw [hhead]
      exact workerTurn_false_break H 0 _ u hbody
    simp only [roundGo, hturn]
    rw [roundGo_true]
  have hrun : sysRun H 0 1 (initState cores (0 :: ids1))
      = ⟨true, WStatus.done ⟨u.best_nonce, u.best_difficulty, u.best_hash⟩ u.evals
          :: (ids1.map (initWorker cores)).map finishNow⟩ := by
    show sysRound H 0 (initState cores (0 :: ids1)) = _
    simp only [sysRound, initState, List.map_cons]
    rw [hround]
  have hws : (sysRun H 0 1 (initState cores (0 :: ids1))).workers
      = WStatus.done ⟨u.best_nonce, u.best_difficulty, u.best_hash⟩ u.evals
          :: (ids1.map (initWorker cores)).map finishNow := by
    rw [hrun]
  have h1 : allDone (sysRun H 0 1 (initState cores (0 :: ids1))) = true := by
    unfold allDone
    rw [hws]
    refine List.all_eq_true.mpr ?_
    intro w hw
    rcases List.mem_cons.mp hw with h | h
    · rw [h]; rfl
    · rcases List.mem_map.mp h with ⟨x, _, hx⟩
      rw [← hx]
      exact isDone_finishNow x
  have h2 : ∀ w ∈ (sysRun H 0 1 (initState cores (0 :: ids1))).workers,
      workerEvals w ≤ 1 := by
    rw [hws]
    intro w hw
    rcases List.mem_cons.mp hw with h | h
    · rw [h]
      show u.evals ≤ 1
      omega
    · rcases List.mem_map.mp h with ⟨x, hx1, hx⟩
      rcases List.mem_map.mp hx1 with ⟨i, _, hi⟩
      rcases finishNow_initWorker cores i with ⟨nn, hfi⟩
      rw [← hx, ← hi, hfi]
      exact Nat.zero_le 1
  have h3 : (reduceBest (results (sysRun H 0 1 (initState cores (0 :: ids1))))).nonce
      = startNonce cores 0 := by
    unfold results reduceBest
    rw [hws, h00]
    simp only [List.map_cons, List.foldl_cons]
    have htail : ∀ w : WorkerResult,
        some w ∈ ((ids1.map (initWorker cores)).map finishNow).map
          (fun w => match w with
            | WStatus.done r _ => some r
            | WStatus.running _ => none) →
        w.difficulty
          ≤ (reduceStep nullResult
              (some ⟨u.best_nonce, u.best_difficulty, u.best_hash⟩)).difficulty := by
      intro w hwmem
      have hw0 : w.difficulty = 0 := by
        rcases List.mem_map.mp hwmem with ⟨x, hx1, hx2⟩
        rcases List.mem_map.mp hx1 with ⟨y, hy1, hy2⟩
        rcases List.mem_map.mp hy1 with ⟨i, _, hi⟩
        rcases finishNow_initWorker cores i with ⟨nn, hfi⟩
        rw [← hy2, ← hi, hfi] at hx2
        have hww : (⟨nn, 0, Hash.default⟩ : WorkerResult) = w := by
          simpa using hx2
        rw [← hww]
      rw [hw0]
      exact Nat.zero_le _
    rw [reduce_const _ _ htail]
    simp only [reduceStep]
    by_cases hlt0 : nullResult.difficulty
        < (⟨u.best_nonce, u.best_difficulty, u.best_hash⟩ : WorkerResult).difficulty
    · rw [if_pos hlt0]
      exact hun
    · rw [if_neg hlt0]
      rfl
  have h4 : (findHashParResult (sysRun H 0 1 (initState cores (0 :: ids1)))).n
      = leBytes8 (startNonce cores 0) := by
    show leBytes8
        (reduceBest (results (sysRun H 0 1 (initState cores (0 :: ids1))))).nonce = _
    rw [h3]
  exact ⟨h1, h2, h3, h4⟩

/-- C9 (witness): two enumerated cores, one requested worker, target 0,
every nonce hashing successfully with difficulty 1. -/
theorem C9_target_zero_first_worker_witness :
    allDone (sysRun Hsample 0 1 (initState 1 (0 :: [1]))) = true ∧
    (∀ w ∈ (sysRun Hsample 0 1 (initState 1 (0 :: [1]))).workers,
      workerEvals w ≤ 1) ∧
    (reduceBest (results (sysRun Hsample 0 1 (initState 1 (0 :: [1]))))).nonce
      = startNonce 1 0 ∧
    (findHashParResult (sysRun Hsample 0 1 (initState 1 (0 :: [1])))).n
      = leBytes8 (startNonce 1 0) :=
  C9_target_zero_first_worker 1 (by decide) [1] Hsample 1 Hash.default rfl
